import Mathlib

namespace Textpod

/-! Shallow embedding of the textpod note store (src/note/backends/yaml.rs),
the markdown link rewriting (src/note/markdown.rs, src/main.rs) and the
downloader (src/downloader.rs).  Rust `String`s are embedded as `List Char`;
the markdown renderer (the external comrak crate) is an explicit parameter
`render`; wall-clock timestamps are explicit arguments; file and child
process I/O results are explicit arguments. -/

/-- Unicode `White_Space` property, as used by Rust's `char::is_whitespace`
(called by `str::trim` and by the `trim_matches` predicate in the source). -/
def rustIsWhitespace (c : Char) : Bool :=
  c = '\t' || c = '\n' || c.val = 0x0B || c.val = 0x0C || c = '\r' || c = ' ' ||
  c.val = 0x85 || c.val = 0xA0 || c.val = 0x1680 ||
  (0x2000 ≤ c.val && c.val ≤ 0x200A) ||
  c.val = 0x2028 || c.val = 0x2029 || c.val = 0x202F || c.val = 0x205F ||
  c.val = 0x3000

/-- Rust `char::is_alphanumeric`, restricted to ASCII (every input exercised
by the spec and the claims is ASCII; the full Unicode Alphabetic and
Nd/Nl/No classes are not modelled). -/
def charIsAlphanumeric (c : Char) : Bool :=
  c.isAlpha || c.isDigit

/-- Rust `str::trim_matches` with predicate `p`: drop the longest prefix and
the longest suffix whose characters satisfy `p`. -/
def trimMatchesP (p : Char → Bool) (s : List Char) : List Char :=
  ((s.dropWhile p).reverse.dropWhile p).reverse

/-- Rust `str::trim`. -/
def trim (s : List Char) : List Char :=
  trimMatchesP rustIsWhitespace s

/-- Rust `str::strip_prefix`: the remainder when `p` is a prefix, else none. -/
def stripPre (p s : List Char) : Option (List Char) :=
  if p.isPrefixOf s then some (s.drop p.length) else none

/-- Rust `str::splitn(2, sep)` for a character separator: split at the first
occurrence of `sep`; `none` when `sep` does not occur. -/
def splitFirst (sep : Char) : List Char → Option (List Char × List Char)
  | [] => none
  | c :: rest =>
    if c = sep then some ([], rest)
    else
      match splitFirst sep rest with
      | none => none
      | some (a, b) => some (c :: a, b)

/-- Fuelled worker for `splitOnSub` (the fuel keeps the recursion
structural; `splitOnSub` instantiates it with the input's length). -/
def splitOnSubFuel (s0 : Char) (srest : List Char) :
    Nat → List Char → List (List Char)
  | 0, _ => [[]]
  | _ + 1, [] => [[]]
  | fuel + 1, c :: rest =>
    if (s0 :: srest).isPrefixOf (c :: rest) then
      [] :: splitOnSubFuel s0 srest fuel (rest.drop srest.length)
    else
      match splitOnSubFuel s0 srest fuel rest with
      | [] => [[c]]
      | h :: t => (c :: h) :: t

/-- Rust `str::split` on the non-empty pattern `s0 :: srest`: split at every
leftmost non-overlapping occurrence of the pattern. -/
def splitOnSub (s0 : Char) (srest s : List Char) : List (List Char) :=
  splitOnSubFuel s0 srest s.length s

/-- Fuelled worker for `replaceSub`. -/
def replaceSubFuel (p0 : Char) (prest repl : List Char) :
    Nat → List Char → List Char
  | 0, s => s
  | _ + 1, [] => []
  | fuel + 1, c :: rest =>
    if (p0 :: prest).isPrefixOf (c :: rest) then
      repl ++ replaceSubFuel p0 prest repl fuel (rest.drop prest.length)
    else
      c :: replaceSubFuel p0 prest repl fuel rest

/-- Rust `str::replace` with the non-empty pattern `p0 :: prest`: replace
every leftmost non-overlapping occurrence of the pattern by `repl`. -/
def replaceSub (p0 : Char) (prest repl s : List Char) : List Char :=
  replaceSubFuel p0 prest repl s.length s

/-- Rust `str::contains` for a pattern string: the pattern occurs as a
contiguous substring. -/
def occursIn (p : List Char) : List Char → Bool
  | [] => p.isEmpty
  | c :: rest => p.isPrefixOf (c :: rest) || occursIn p rest

/-- A note (src/note/mod.rs `Note`): id, creation timestamp, markdown
content and cached rendered html. -/
structure Note where
  id : Nat
  timestamp : List Char
  content : List Char
  html : List Char
deriving DecidableEq

/-- src/note/mod.rs `NotesError` (payloads dropped). -/
inductive NotesError where
  | io
  | internal
deriving DecidableEq

/-- `State::next_note_id`: the maximum of `id + 1` over all notes
(`NoteId::next`), `0` for an empty store (`unwrap_or_default`). -/
def next_note_id (notes : List Note) : Nat :=
  (notes.map (fun n => n.id + 1)).foldr max 0

/-- `State::append_note`: build the note carrying the next id and push it;
returns the new sequence and the note.  `render` stands for
`Markdown::to_html`, `ts` for `util::local_timestamp()`. -/
def append_note (render : List Char → List Char) (notes : List Note)
    (ts content : List Char) : List Note × Note :=
  let note : Note := { id := next_note_id notes, timestamp := ts,
                       content := content, html := render content }
  (notes ++ [note], note)

/-- `State::update_note`: replace content and html of the first note whose
id matches; silently keep the sequence unchanged when no note matches. -/
def update_note (render : List Char → List Char) :
    List Note → Nat → List Char → List Note
  | [], _, _ => []
  | n :: ns, id, c =>
    if n.id = id then { n with content := c, html := render c } :: ns
    else n :: update_note render ns id c

/-- `State::delete_note`: remove the first note whose id matches; silently
keep the sequence unchanged when no note matches. -/
def delete_note : List Note → Nat → List Note
  | [], _ => []
  | n :: ns, id => if n.id = id then ns else n :: delete_note ns id

/-- `YamlBackend::get_all_notes`: a snapshot of the whole sequence. -/
def get_all_notes (notes : List Note) : List Note := notes

/-- `YamlBackend::get_note_by_id`: the first note with the given id. -/
def get_note_by_id (notes : List Note) (id : Nat) : Option Note :=
  notes.find? (fun n => n.id == id)

/-- `YamlBackend::create_note`: push the note in memory, then attempt the
durable append (`append_note_to_file`); `ioOk` models whether that file
write succeeds.  The in-memory insertion is never rolled back. -/
def backend_create_note (render : List Char → List Char) (notes : List Note)
    (ts content : List Char) (ioOk : Bool) :
    List Note × Note × Option NotesError :=
  let r := append_note render notes ts content
  (r.1, r.2, if ioOk then none else some NotesError.io)

/-- `YamlBackend::update_note`: in-memory update, then an unconditional
rewrite of the whole file (`write_notes_to_file`); a failing rewrite is
reported as an I/O error, the in-memory state keeps the update. -/
def backend_update_note (render : List Char → List Char) (notes : List Note)
    (id : Nat) (content : List Char) (ioOk : Bool) :
    List Note × Option NotesError :=
  (update_note render notes id content, if ioOk then none else some NotesError.io)

/-- `YamlBackend::delete_note`: in-memory delete, then the unconditional
file rewrite, with the same error reporting as update. -/
def backend_delete_note (notes : List Note) (id : Nat) (ioOk : Bool) :
    List Note × Option NotesError :=
  (delete_note notes id, if ioOk then none else some NotesError.io)

/-- The record delimiter `"\n\n---\n\n"` without its first newline. -/
def delimRest : List Char := ['\n', '-', '-', '-', '\n', '\n']

/-- The record delimiter `"\n\n---\n\n"`. -/
def DELIM : List Char := '\n' :: delimRest

/-- `append_note_to_file`: `write!(file, "{}\n{}\n\n---\n\n", timestamp,
content)`. -/
def serializeNote (n : Note) : List Char :=
  n.timestamp ++ '\n' :: n.content ++ DELIM

/-- `write_notes_to_file`: append every record in sequence order. -/
def serializeNotes : List Note → List Char
  | [] => []
  | n :: ns => serializeNote n ++ serializeNotes ns

/-- One block of `YamlBackend::load`: split at the first newline into
trimmed timestamp and trimmed content; a block without a newline becomes
content carried by a fresh timestamp. -/
def parseBlock (fresh_ts block : List Char) : List Char × List Char :=
  match splitFirst '\n' block with
  | some (t, c) => (trim t, trim c)
  | none => (fresh_ts, block)

/-- Rust `Iterator::enumerate`, generalised to start at `i`. -/
def enumFromNat (i : Nat) : List α → List (Nat × α)
  | [] => []
  | a :: rest => (i, a) :: enumFromNat (i + 1) rest

/-- `YamlBackend::load` applied to the file's text: split on the record
delimiter, discard blank blocks, parse each block, assign ids by 0-indexed
position and render html from the loaded content. -/
def loadNotes (render : List Char → List Char) (fresh_ts file : List Char) :
    List Note :=
  let blocks := (splitOnSub '\n' delimRest file).filter
    (fun b => !(trim b).isEmpty)
  (enumFromNat 0 (blocks.map (parseBlock fresh_ts))).map
    (fun p => { id := p.1, timestamp := p.2.1, content := p.2.2,
                html := render p.2.2 })

/-- One store mutation issued through the HTTP layer. -/
inductive Op where
  | create (ts content : List Char)
  | update (id : Nat) (content : List Char)
  | delete (id : Nat)

/-- Apply one operation to the in-memory sequence. -/
def applyOp (render : List Char → List Char) (notes : List Note) :
    Op → List Note
  | Op.create ts c => (append_note render notes ts c).1
  | Op.update id c => update_note render notes id c
  | Op.delete id => delete_note notes id

/-- Apply a sequence of operations left to right. -/
def applyOps (render : List Char → List Char) (notes : List Note)
    (ops : List Op) : List Note :=
  ops.foldl (applyOp render) notes

/-- The ids handed out by the create operations of `ops`, in execution
order: the insertion order of the run. -/
def createdIds (render : List Char → List Char) :
    List Note → List Op → List Nat
  | _, [] => []
  | notes, Op.create ts c :: ops =>
    next_note_id notes ::
      createdIds render (applyOp render notes (Op.create ts c)) ops
  | notes, Op.update id c :: ops =>
    createdIds render (applyOp render notes (Op.update id c)) ops
  | notes, Op.delete id :: ops =>
    createdIds render (applyOp render notes (Op.delete id)) ops

/-- The store invariant relating the cached html to the content. -/
def htmlInv (render : List Char → List Char) (notes : List Note) : Prop :=
  ∀ n ∈ notes, n.html = render n.content

/-- Specification-level model for claim C1, following the spec's words
("get_all returns notes in original insertion order minus deleted ones"):
the full insertion history keeps every note ever inserted, in insertion
order, each with a deleted flag.  The spec-level result of `get_all` is the
live entries of the history, in order. -/
def specLive (hist : List (Bool × Note)) : List Note :=
  (hist.filter (fun e => !e.1)).map (fun e => e.2)

/-- Spec-level update: rewrite content and html of the first live entry
carrying the id; deleted entries and all other notes are untouched. -/
def specUpdateHist (render : List Char → List Char) :
    List (Bool × Note) → Nat → List Char → List (Bool × Note)
  | [], _, _ => []
  | (d, n) :: rest, id, c =>
    if d = false ∧ n.id = id then
      (d, { n with content := c, html := render c }) :: rest
    else (d, n) :: specUpdateHist render rest id c

/-- Spec-level delete: mark the first live entry carrying the id as
deleted; every note stays in the history. -/
def specDeleteHist : List (Bool × Note) → Nat → List (Bool × Note)
  | [], _ => []
  | (d, n) :: rest, id =>
    if d = false ∧ n.id = id then (true, n) :: rest
    else (d, n) :: specDeleteHist rest id

/-- Spec-level step: create appends a live note carrying the next id
computed from the live entries, update and delete act as above. -/
def specApplyOp (render : List Char → List Char)
    (hist : List (Bool × Note)) : Op → List (Bool × Note)
  | Op.create ts c =>
    hist ++ [(false, { id := next_note_id (specLive hist), timestamp := ts,
                       content := c, html := render c })]
  | Op.update id c => specUpdateHist render hist id c
  | Op.delete id => specDeleteHist hist id

/-- Spec-level replay of an operation sequence over the history. -/
def specApplyOps (render : List Char → List Char)
    (hist : List (Bool × Note)) (ops : List Op) : List (Bool × Note) :=
  ops.foldl (specApplyOp render) hist

/-- The history of a freshly loaded store: every loaded note live, in file
order. -/
def initHist (notes : List Note) : List (Bool × Note) :=
  notes.map (fun n => (false, n))

/-- `util::url_to_safe_filename`: chained `trim` / `strip_prefix` /
`unwrap_or(url)` exactly as in the source, then map every character that is
not alphanumeric, '-', '.' or '_' to '_', then trim leading and trailing
dots and whitespace. -/
def url_to_safe_filename (url : List Char) : List Char :=
  let b := (stripPre "http://".toList (trim url)).getD url
  let stripped_url := (stripPre "https://".toList b).getD url
  let safe_name := stripped_url.map
    (fun c =>
      if charIsAlphanumeric c || c = '-' || c = '.' || c = '_' then c else '_')
  trimMatchesP (fun c => c = '.' || rustIsWhitespace c) safe_name

/-- `std::path::Path::strip_prefix(base)`, modelled for '/'-separated paths
with a proper non-empty remainder (the only shape the code produces). -/
def relativeTo (base p : List Char) : Option (List Char) :=
  if (base ++ ['/']).isPrefixOf p then some (p.drop (base.length + 1))
  else none

/-- `DownloaderDelegate::update_local_link` (src/main.rs): look the note up
by id (silently return when it is gone), make `local_path` relative to the
attachments root (silently return when that fails), then store the current
content with every occurrence of `+<url>` replaced by
`<url> ([local copy](/attachments/<relative>))`. -/
def delegate_update_local_link (render : List Char → List Char)
    (notes : List Note) (note_id : Nat) (attachments_dir : List Char)
    (external_link local_path : List Char) : List Note :=
  match get_note_by_id notes note_id with
  | none => notes
  | some note =>
    match relativeTo attachments_dir local_path with
    | none => notes
    | some relative_path =>
      let local_link := "/attachments/".toList ++ relative_path
      let new_content := replaceSub '+' external_link
        (external_link ++ " ([local copy](".toList ++ local_link ++
          "))".toList) note.content
      update_note render notes note.id new_content

/-- Captured result of an external child process: exit-status success flag
and stdout (`std::process::Output` restricted to what the code reads). -/
structure ProcOutput where
  success : Bool
  stdout : List Char
deriving DecidableEq

/-- `download_webpage`: compute the output path from the sanitized url, run
the archiver (the invocation's result is the `result` argument: `.error` is
a spawn failure, `.ok` a completed process) and on any completed process —
the exit status is never inspected — call back into the delegate. -/
def download_webpage (render : List Char → List Char) (url : List Char)
    (notes : List Note) (note_id : Nat) (attachments_dir : List Char)
    (result : Except Unit ProcOutput) : List Note :=
  let filename := url_to_safe_filename url ++ ".html".toList
  let filepath := attachments_dir ++ "/webpages/".toList ++ filename
  match result with
  | Except.error _ => notes
  | Except.ok _ =>
    delegate_update_local_link render notes note_id attachments_dir url
      filepath

/-- `download_video`: on a completed process — again without checking the
exit status — treat its stdout as the downloaded file path and call back
into the delegate. -/
def download_video (render : List Char → List Char) (url : List Char)
    (notes : List Note) (note_id : Nat) (attachments_dir : List Char)
    (result : Except Unit ProcOutput) : List Note :=
  match result with
  | Except.error _ => notes
  | Except.ok output =>
    delegate_update_local_link render notes note_id attachments_dir url
      output.stdout

/-- The persisted record body `timestamp ++ '\n' :: content` of a note. -/
def chunkOf (n : Note) : List Char := n.timestamp ++ '\n' :: n.content

/-- The record body is clean: the delimiter does not occur (not even
overlapping the terminating delimiter) before the record's end. -/
@[reducible]
def cleanChunk (chunk : List Char) : Prop :=
  ∀ i, i < chunk.length →
    DELIM.isPrefixOf (List.drop i (chunk ++ DELIM)) = false

/-! Helper lemmas about the string model. -/

theorem isPrefixOf_append_self (p r : List Char) :
    p.isPrefixOf (p ++ r) = true := by
  induction p with
  | nil => simp [List.isPrefixOf]
  | cons a p ih => simp [List.isPrefixOf, ih]

theorem isPrefixOf_append_of_le (p x y : List Char) (h : p.length ≤ x.length) :
    p.isPrefixOf (x ++ y) = p.isPrefixOf x := by
  induction p generalizing x with
  | nil => simp [List.isPrefixOf]
  | cons a p ih =>
    cases x with
    | nil => simp at h
    | cons b x =>
      simp only [List.cons_append, List.isPrefixOf, List.append_eq]
      rw [ih x (by simpa using h)]

theorem drop_append_le {α : Type} (i : Nat) (x y : List α) (h : i ≤ x.length) :
    List.drop i (x ++ y) = List.drop i x ++ y := by
  induction x generalizing i with
  | nil =>
    have : i = 0 := by simpa using h
    simp [this]
  | cons a x ih =>
    cases i with
    | zero => simp
    | succ i =>
      simp only [List.cons_append, List.drop_succ_cons]
      exact ih i (by simpa using h)

theorem splitOnSubFuel_congr (s0 : Char) (srest : List Char) :
    ∀ f1 f2 s, s.length ≤ f1 → s.length ≤ f2 →
      splitOnSubFuel s0 srest f1 s = splitOnSubFuel s0 srest f2 s := by
  intro f1
  induction f1 with
  | zero =>
    intro f2 s h1 _
    have : s = [] := by
      cases s with
      | nil => rfl
      | cons c rest => simp at h1
    subst this
    cases f2 <;> rfl
  | succ f1 ih =>
    intro f2 s h1 h2
    cases s with
    | nil => cases f2 <;> rfl
    | cons c rest =>
      cases f2 with
      | zero => simp at h2
      | succ f2 =>
        simp only [splitOnSubFuel]
        have hr : rest.length ≤ f1 := by simpa using h1
        have hr2 : rest.length ≤ f2 := by simpa using h2
        by_cases hp : (s0 :: srest).isPrefixOf (c :: rest) = true
        · rw [if_pos hp, if_pos hp]
          have hd : (rest.drop srest.length).length ≤ f1 := by
            simp only [List.length_drop]
            omega
          have hd2 : (rest.drop srest.length).length ≤ f2 := by
            simp only [List.length_drop]
            omega
          rw [ih f2 (rest.drop srest.length) hd hd2]
        · rw [if_neg hp, if_neg hp, ih f2 rest hr hr2]

theorem splitOnSub_cons (s0 : Char) (srest : List Char) (c : Char)
    (rest : List Char) :
    splitOnSub s0 srest (c :: rest) =
      if (s0 :: srest).isPrefixOf (c :: rest) then
        [] :: splitOnSub s0 srest (rest.drop srest.length)
      else
        match splitOnSub s0 srest rest with
        | [] => [[c]]
        | h :: t => (c :: h) :: t := by
  show splitOnSubFuel s0 srest (rest.length + 1) (c :: rest) = _
  simp only [splitOnSubFuel]
  by_cases hp : (s0 :: srest).isPrefixOf (c :: rest) = true
  · rw [if_pos hp, if_pos hp]
    have := splitOnSubFuel_congr s0 srest rest.length
      (rest.drop srest.length).length (rest.drop srest.length)
      (by simp only [List.length_drop]; omega) (Nat.le_refl _)
    rw [this]
    rfl
  · rw [if_neg hp, if_neg hp]
    rfl

theorem replaceSubFuel_congr (p0 : Char) (prest repl : List Char) :
    ∀ f1 f2 s, s.length ≤ f1 → s.length ≤ f2 →
      replaceSubFuel p0 prest repl f1 s = replaceSubFuel p0 prest repl f2 s := by
  intro f1
  induction f1 with
  | zero =>
    intro f2 s h1 _
    have : s = [] := by
      cases s with
      | nil => rfl
      | cons c rest => simp at h1
    subst this
    cases f2 <;> rfl
  | succ f1 ih =>
    intro f2 s h1 h2
    cases s with
    | nil => cases f2 <;> rfl
    | cons c rest =>
      cases f2 with
      | zero => simp at h2
      | succ f2 =>
        simp only [replaceSubFuel]
        have hr : rest.length ≤ f1 := by simpa using h1
        have hr2 : rest.length ≤ f2 := by simpa using h2
        by_cases hp : (p0 :: prest).isPrefixOf (c :: rest) = true
        · rw [if_pos hp, if_pos hp]
          have hd : (rest.drop prest.length).length ≤ f1 := by
            simp only [List.length_drop]
            omega
          have hd2 : (rest.drop prest.length).length ≤ f2 := by
            simp only [List.length_drop]
            omega
          rw [ih f2 (rest.drop prest.length) hd hd2]
        · rw [if_neg hp, if_neg hp, ih f2 rest hr hr2]

theorem replaceSub_cons (p0 : Char) (prest repl : List Char) (c : Char)
    (rest : List Char) :
    replaceSub p0 prest repl (c :: rest) =
      if (p0 :: prest).isPrefixOf (c :: rest) then
        repl ++ replaceSub p0 prest repl (rest.drop prest.length)
      else
        c :: replaceSub p0 prest repl rest := by
  show replaceSubFuel p0 prest repl (rest.length + 1) (c :: rest) = _
  simp only [replaceSubFuel]
  by_cases hp : (p0 :: prest).isPrefixOf (c :: rest) = true
  · rw [if_pos hp, if_pos hp]
    have := replaceSubFuel_congr p0 prest repl rest.length
      (rest.drop prest.length).length (rest.drop prest.length)
      (by simp only [List.length_drop]; omega) (Nat.le_refl _)
    rw [this]
    rfl
  · rw [if_neg hp, if_neg hp]
    rfl

theorem replaceSub_of_not_occurs (p0 : Char) (prest repl s : List Char)
    (h : occursIn (p0 :: prest) s = false) :
    replaceSub p0 prest repl s = s := by
  induction s with
  | nil => rfl
  | cons c rest ih =>
    simp only [occursIn, Bool.or_eq_false_iff] at h
    rw [replaceSub_cons, if_neg (by simp [h.1]), ih h.2]

theorem cleanChunk_cons (c : Char) (chunk : List Char)
    (h : cleanChunk (c :: chunk)) : cleanChunk chunk := by
  intro i hi
  have := h (i + 1) (by simpa using Nat.succ_lt_succ hi)
  simpa using this

theorem splitOnSub_chunk (chunk rest : List Char) (h : cleanChunk chunk) :
    splitOnSub '\n' delimRest (chunk ++ (DELIM ++ rest)) =
      chunk :: splitOnSub '\n' delimRest rest := by
  induction chunk with
  | nil =>
    show splitOnSub '\n' delimRest (('\n' :: delimRest) ++ rest) = _
    rw [List.cons_append, splitOnSub_cons]
    have hp : (('\n' : Char) :: delimRest).isPrefixOf
        ('\n' :: (delimRest ++ rest)) = true := by
      exact isPrefixOf_append_self ('\n' :: delimRest) rest
    rw [if_pos hp, List.drop_left]
  | cons c chunk ih =>
    have h0 := h 0 (by simp)
    rw [List.cons_append, splitOnSub_cons]
    have hfalse : (('\n' : Char) :: delimRest).isPrefixOf
        (c :: (chunk ++ (DELIM ++ rest))) = false := by
      have hsh : c :: (chunk ++ (DELIM ++ rest)) =
          ((c :: chunk) ++ DELIM) ++ rest := by simp
      rw [hsh, isPrefixOf_append_of_le _ _ _ (by simp [DELIM, delimRest])]
      simpa [DELIM] using h0
    rw [if_neg (by simp [hfalse]), ih (cleanChunk_cons c chunk h)]

theorem splitOnSub_serialize (notes : List Note)
    (h : ∀ n ∈ notes, cleanChunk (chunkOf n)) :
    splitOnSub '\n' delimRest (serializeNotes notes) =
      (notes.map chunkOf) ++ [[]] := by
  induction notes with
  | nil => rfl
  | cons n ns ih =>
    have hs : serializeNotes (n :: ns) =
        chunkOf n ++ (DELIM ++ serializeNotes ns) := by
      simp [serializeNotes, serializeNote, chunkOf]
    rw [hs, splitOnSub_chunk _ _ (h n (by simp)),
      ih (fun m hm => h m (by simp [hm]))]
    simp

theorem trimMatchesP_eq_nil_iff (p : Char → Bool) (l : List Char) :
    trimMatchesP p l = [] ↔ ∀ x ∈ l, p x = true := by
  simp only [trimMatchesP, List.reverse_eq_nil_iff]
  rw [List.dropWhile_eq_nil_iff]
  constructor
  · intro h x hx
    have hx' : x ∈ l.takeWhile p ++ l.dropWhile p := by
      rw [List.takeWhile_append_dropWhile]
      exact hx
    rcases List.mem_append.mp hx' with h1 | h2
    · exact List.mem_takeWhile_imp h1
    · exact h x (List.mem_reverse.mpr h2)
  · intro h x hx
    exact h x (List.dropWhile_subset p (List.mem_reverse.mp hx))

theorem head_not_ws_of_trim_self (a : Char) (t : List Char)
    (hts : trim (a :: t) = a :: t) : rustIsWhitespace a = false := by
  cases hb : rustIsWhitespace a with
  | false => rfl
  | true =>
    exfalso
    have hlen : (trim (a :: t)).length ≤ t.length := by
      simp only [trim, trimMatchesP, List.dropWhile_cons_of_pos hb,
        List.length_reverse]
      calc ((t.dropWhile rustIsWhitespace).reverse.dropWhile
              rustIsWhitespace).length
          ≤ (t.dropWhile rustIsWhitespace).reverse.length :=
            (List.dropWhile_sublist _).length_le
        _ = (t.dropWhile rustIsWhitespace).length := by simp
        _ ≤ t.length := (List.dropWhile_sublist _).length_le
    rw [hts] at hlen
    simp only [List.length_cons] at hlen
    omega

theorem trim_append_ne_nil (ts rest : List Char) (hts : trim ts = ts)
    (hne : ts ≠ []) : trim (ts ++ rest) ≠ [] := by
  obtain ⟨a, t, rfl⟩ : ∃ a t, ts = a :: t := by
    cases ts with
    | nil => exact absurd rfl hne
    | cons a t => exact ⟨a, t, rfl⟩
  have ha := head_not_ws_of_trim_self a t hts
  intro hnil
  rw [trim, trimMatchesP_eq_nil_iff] at hnil
  have := hnil a (by simp)
  rw [ha] at this
  exact Bool.false_ne_true this

theorem splitFirst_sep (ts c : List Char) (h : ('\n' : Char) ∉ ts) :
    splitFirst '\n' (ts ++ '\n' :: c) = some (ts, c) := by
  induction ts with
  | nil => simp [splitFirst]
  | cons a t ih =>
    have ha : ¬ a = '\n' := by
      intro e
      exact h (by simp [e])
    simp only [List.cons_append, splitFirst, if_neg ha, List.append_eq,
      ih (fun hm => h (by simp [hm]))]

theorem parseBlock_chunk (fresh ts c : List Char) (hn : ('\n' : Char) ∉ ts)
    (hts : trim ts = ts) (hc : trim c = c) :
    parseBlock fresh (ts ++ '\n' :: c) = (ts, c) := by
  simp [parseBlock, splitFirst_sep ts c hn, hts, hc]

theorem enumFromNat_map {α β : Type} (f : α → β) (i : Nat) (l : List α) :
    enumFromNat i (l.map f) = (enumFromNat i l).map (fun p => (p.1, f p.2)) := by
  induction l generalizing i with
  | nil => rfl
  | cons a l ih => simp [enumFromNat, ih]

theorem mem_enumFromNat_le {α : Type} (i : Nat) (l : List α) :
    ∀ p ∈ enumFromNat i l, i ≤ p.1 := by
  induction l generalizing i with
  | nil => simp [enumFromNat]
  | cons a l ih =>
    intro p hp
    simp only [enumFromNat, List.mem_cons] at hp
    rcases hp with rfl | hp
    · exact Nat.le_refl i
    · exact Nat.le_trans (Nat.le_succ i) (ih (i + 1) p hp)

theorem pairwise_enumFromNat {α : Type} (i : Nat) (l : List α) :
    List.Pairwise (fun p q => p.1 < q.1) (enumFromNat i l) := by
  induction l generalizing i with
  | nil => simp [enumFromNat]
  | cons a l ih =>
    simp only [enumFromNat, List.pairwise_cons]
    constructor
    · intro q hq
      exact Nat.lt_of_lt_of_le (Nat.lt_succ_self i)
        (mem_enumFromNat_le (i + 1) l q hq)
    · exact ih (i + 1)

/-! Helper lemmas about the store operations. -/

theorem le_foldr_max {a : Nat} {l : List Nat} (h : a ∈ l) :
    a ≤ l.foldr max 0 := by
  induction l with
  | nil => simp at h
  | cons b l ih =>
    rcases List.mem_cons.mp h with rfl | h
    · exact Nat.le_max_left _ _
    · exact Nat.le_trans (ih h) (Nat.le_max_right _ _)

theorem id_lt_next_note_id (notes : List Note) :
    ∀ n ∈ notes, n.id < next_note_id notes := by
  intro n hn
  have hm : n.id + 1 ∈ notes.map (fun n => n.id + 1) :=
    List.mem_map_of_mem _ hn
  exact Nat.lt_of_lt_of_le (Nat.lt_succ_self _) (le_foldr_max hm)

theorem foldr_max_map_succ (l : List Nat) (hne : l ≠ []) :
    (l.map (fun a => a + 1)).foldr max 0 = l.foldr max 0 + 1 := by
  induction l with
  | nil => exact absurd rfl hne
  | cons a l ih =>
    cases l with
    | nil => simp
    | cons b t =>
      simp only [List.map_cons, List.foldr_cons] at *
      rw [ih (by simp), Nat.succ_max_succ]

theorem update_note_map_id (render : List Char → List Char)
    (notes : List Note) (id : Nat) (c : List Char) :
    (update_note render notes id c).map Note.id = notes.map Note.id := by
  induction notes with
  | nil => rfl
  | cons n ns ih =>
    by_cases h : n.id = id <;> simp [update_note, h, ih]

theorem update_note_map_timestamp (render : List Char → List Char)
    (notes : List Note) (id : Nat) (c : List Char) :
    (update_note render notes id c).map Note.timestamp =
      notes.map Note.timestamp := by
  induction notes with
  | nil => rfl
  | cons n ns ih =>
    by_cases h : n.id = id <;> simp [update_note, h, ih]

theorem update_note_of_not_mem (render : List Char → List Char)
    (notes : List Note) (id : Nat) (c : List Char)
    (h : id ∉ notes.map Note.id) :
    update_note render notes id c = notes := by
  induction notes with
  | nil => rfl
  | cons n ns ih =>
    simp only [List.map_cons, List.mem_cons] at h
    push_neg at h
    rw [update_note, if_neg (fun e => h.1 e.symm), ih h.2]

theorem delete_note_of_not_mem (notes : List Note) (id : Nat)
    (h : id ∉ notes.map Note.id) :
    delete_note notes id = notes := by
  induction notes with
  | nil => rfl
  | cons n ns ih =>
    simp only [List.map_cons, List.mem_cons] at h
    push_neg at h
    rw [delete_note, if_neg (fun e => h.1 e.symm), ih h.2]

theorem delete_note_sublist (notes : List Note) (id : Nat) :
    List.Sublist (delete_note notes id) notes := by
  induction notes with
  | nil => exact List.Sublist.refl _
  | cons n ns ih =>
    by_cases h : n.id = id
    · rw [delete_note, if_pos h]
      exact List.sublist_cons_self n ns
    · rw [delete_note, if_neg h]
      exact List.Sublist.cons₂ n ih

theorem delete_note_id_not_mem (notes : List Note) (id : Nat)
    (h : List.Pairwise (fun a b => a.id < b.id) notes) :
    id ∉ (delete_note notes id).map Note.id := by
  induction notes with
  | nil => simp [delete_note]
  | cons n ns ih =>
    rw [List.pairwise_cons] at h
    by_cases he : n.id = id
    · rw [delete_note, if_pos he]
      intro hmem
      obtain ⟨m, hm, hme⟩ := List.mem_map.mp hmem
      have := h.1 m hm
      omega
    · rw [delete_note, if_neg he]
      simp only [List.map_cons, List.mem_cons]
      push_neg
      exact ⟨fun e => he e.symm, ih h.2⟩

theorem update_note_split (render : List Char → List Char) (pre : List Note)
    (note : Note) (post : List Note) (c : List Char)
    (hpre : ∀ m ∈ pre, m.id ≠ note.id) :
    update_note render (pre ++ note :: post) note.id c =
      pre ++ { note with content := c, html := render c } :: post := by
  induction pre with
  | nil => simp [update_note]
  | cons m pre ih =>
    have hm : ¬ m.id = note.id := hpre m (by simp)
    simp only [List.cons_append, update_note, if_neg hm, List.append_eq]
    rw [ih (fun m' hm' => hpre m' (by simp [hm']))]

theorem update_note_first_self (render : List Char → List Char)
    (notes : List Note) (id : Nat) (note : Note)
    (hfind : get_note_by_id notes id = some note)
    (hc : note.html = render note.content) :
    update_note render notes id note.content = notes := by
  induction notes with
  | nil => simp [get_note_by_id] at hfind
  | cons n ns ih =>
    cases he : (n.id == id) with
    | true =>
      have hn : note = n := by
        simp only [get_note_by_id, List.find?, he] at hfind
        exact (Option.some_inj.mp hfind).symm
      subst hn
      have hn2 : ({ note with
          content := note.content,
          html := render note.content } : Note) = note := by
        cases note with
        | mk nid nts nc nh =>
          simp only [Note.mk.injEq, true_and]
          exact hc.symm
      rw [update_note, if_pos (by simpa using he), hn2]
    | false =>
      have hfind' : get_note_by_id ns id = some note := by
        simp only [get_note_by_id, List.find?, he] at hfind
        exact hfind
      rw [update_note, if_neg (by simpa using he), ih hfind']

/-! Preservation of the store invariants by each operation. -/

theorem htmlInv_append_note (render : List Char → List Char)
    (notes : List Note) (ts c : List Char) (h : htmlInv render notes) :
    htmlInv render (append_note render notes ts c).1 := by
  intro n hn
  simp only [append_note, List.mem_append, List.mem_singleton] at hn
  rcases hn with hn | rfl
  · exact h n hn
  · rfl

theorem htmlInv_update_note (render : List Char → List Char)
    (notes : List Note) (id : Nat) (c : List Char) (h : htmlInv render notes) :
    htmlInv render (update_note render notes id c) := by
  induction notes with
  | nil => intro n hn; simp [update_note] at hn
  | cons m ns ih =>
    intro n hn
    by_cases he : m.id = id
    · rw [update_note, if_pos he] at hn
      rcases List.mem_cons.mp hn with rfl | hn
      · rfl
      · exact h n (by simp [hn])
    · rw [update_note, if_neg he] at hn
      rcases List.mem_cons.mp hn with rfl | hn
      · exact h n (by simp)
      · exact ih (fun m' hm' => h m' (by simp [hm'])) n hn

theorem htmlInv_delete_note (render : List Char → List Char)
    (notes : List Note) (id : Nat) (h : htmlInv render notes) :
    htmlInv render (delete_note notes id) :=
  fun n hn => h n ((delete_note_sublist notes id).subset hn)

theorem htmlInv_applyOp (render : List Char → List Char) (notes : List Note)
    (op : Op) (h : htmlInv render notes) :
    htmlInv render (applyOp render notes op) := by
  cases op with
  | create ts c => exact htmlInv_append_note render notes ts c h
  | update id c => exact htmlInv_update_note render notes id c h
  | delete id => exact htmlInv_delete_note render notes id h

theorem htmlInv_applyOps (render : List Char → List Char) (ops : List Op) :
    ∀ notes : List Note, htmlInv render notes →
      htmlInv render (applyOps render notes ops) := by
  induction ops with
  | nil => intro notes h; exact h
  | cons op ops ih =>
    intro notes h
    exact ih (applyOp render notes op) (htmlInv_applyOp render notes op h)

theorem pairwise_append_note (render : List Char → List Char)
    (notes : List Note) (ts c : List Char)
    (h : List.Pairwise (fun a b => a.id < b.id) notes) :
    List.Pairwise (fun a b => a.id < b.id) (append_note render notes ts c).1 := by
  simp only [append_note]
  rw [List.pairwise_append]
  refine ⟨h, List.pairwise_singleton _ _, ?_⟩
  intro a ha b hb
  rw [List.mem_singleton] at hb
  subst hb
  simpa using id_lt_next_note_id notes a ha

theorem pairwise_update_note (render : List Char → List Char)
    (notes : List Note) (id : Nat) (c : List Char)
    (h : List.Pairwise (fun a b => a.id < b.id) notes) :
    List.Pairwise (fun a b => a.id < b.id) (update_note render notes id c) := by
  have h1 : List.Pairwise (fun a b => a < b) (notes.map Note.id) :=
    List.pairwise_map.mpr h
  have h2 : List.Pairwise (fun a b => a < b)
      ((update_note render notes id c).map Note.id) := by
    rw [update_note_map_id]
    exact h1
  exact List.pairwise_map.mp h2

theorem pairwise_delete_note (notes : List Note) (id : Nat)
    (h : List.Pairwise (fun a b => a.id < b.id) notes) :
    List.Pairwise (fun a b => a.id < b.id) (delete_note notes id) :=
  List.Pairwise.sublist (delete_note_sublist notes id) h

theorem pairwise_applyOp (render : List Char → List Char) (notes : List Note)
    (op : Op) (h : List.Pairwise (fun a b => a.id < b.id) notes) :
    List.Pairwise (fun a b => a.id < b.id) (applyOp render notes op) := by
  cases op with
  | create ts c => exact pairwise_append_note render notes ts c h
  | update id c => exact pairwise_update_note render notes id c h
  | delete id => exact pairwise_delete_note notes id h

theorem pairwise_applyOps (render : List Char → List Char) (ops : List Op) :
    ∀ notes : List Note, List.Pairwise (fun a b => a.id < b.id) notes →
      List.Pairwise (fun a b => a.id < b.id) (applyOps render notes ops) := by
  induction ops with
  | nil => intro notes h; exact h
  | cons op ops ih =>
    intro notes h
    exact ih (applyOp render notes op) (pairwise_applyOp render notes op h)

theorem loadNotes_htmlInv (render : List Char → List Char)
    (fresh file : List Char) : htmlInv render (loadNotes render fresh file) := by
  intro n hn
  simp only [loadNotes, List.mem_map] at hn
  obtain ⟨p, hp, rfl⟩ := hn
  rfl

theorem loadNotes_pairwise (render : List Char → List Char)
    (fresh file : List Char) :
    List.Pairwise (fun a b => a.id < b.id) (loadNotes render fresh file) := by
  simp only [loadNotes]
  exact List.Pairwise.map _ (fun a b hab => hab) (pairwise_enumFromNat 0 _)

theorem applyOps_map_id_sublist (render : List Char → List Char)
    (ops : List Op) :
    ∀ notes : List Note,
      List.Sublist ((applyOps render notes ops).map Note.id)
        (notes.map Note.id ++ createdIds render notes ops) := by
  induction ops with
  | nil =>
    intro notes
    simp [applyOps, createdIds]
  | cons op ops ih =>
    intro notes
    cases op with
    | create ts c =>
      have h1 := ih (append_note render notes ts c).1
      have h2 : (append_note render notes ts c).1.map Note.id =
          notes.map Note.id ++ [next_note_id notes] := by
        simp [append_note]
      rw [h2] at h1
      have h3 : notes.map Note.id ++
          createdIds render notes (Op.create ts c :: ops) =
          (notes.map Note.id ++ [next_note_id notes]) ++
            createdIds render (applyOp render notes (Op.create ts c)) ops := by
        rw [createdIds, List.append_assoc]
        rfl
      rw [h3]
      exact h1
    | update id c =>
      have h1 := ih (update_note render notes id c)
      rw [update_note_map_id] at h1
      rw [createdIds]
      exact h1
    | delete id =>
      have h1 := ih (delete_note notes id)
      rw [createdIds]
      refine List.Sublist.trans h1 (List.Sublist.append ?_ (List.Sublist.refl _))
      exact (delete_note_sublist notes id).map Note.id

/-! Simulation between the implementation and the spec-level history model
of claim C1. -/

theorem specLive_initHist (notes : List Note) :
    specLive (initHist notes) = notes := by
  induction notes with
  | nil => rfl
  | cons n ns ih =>
    simp only [initHist, List.map_cons, specLive, List.filter_cons] at *
    simpa using ih

theorem specLive_update (render : List Char → List Char)
    (hist : List (Bool × Note)) (id : Nat) (c : List Char) :
    specLive (specUpdateHist render hist id c) =
      update_note render (specLive hist) id c := by
  induction hist with
  | nil => rfl
  | cons e rest ih =>
    obtain ⟨d, n⟩ := e
    cases d with
    | true =>
      rw [specUpdateHist, if_neg (by simp)]
      simp only [specLive, List.filter_cons] at *
      simpa using ih
    | false =>
      by_cases he : n.id = id
      · rw [specUpdateHist, if_pos ⟨rfl, he⟩]
        simp only [specLive, List.filter_cons] at *
        simp [update_note, he]
      · rw [specUpdateHist, if_neg (by simp [he])]
        simp only [specLive, List.filter_cons] at *
        simp [update_note, he, ih]

theorem specLive_delete (hist : List (Bool × Note)) (id : Nat) :
    specLive (specDeleteHist hist id) = delete_note (specLive hist) id := by
  induction hist with
  | nil => rfl
  | cons e rest ih =>
    obtain ⟨d, n⟩ := e
    cases d with
    | true =>
      rw [specDeleteHist, if_neg (by simp)]
      simp only [specLive, List.filter_cons] at *
      simpa using ih
    | false =>
      by_cases he : n.id = id
      · rw [specDeleteHist, if_pos ⟨rfl, he⟩]
        simp only [specLive, List.filter_cons] at *
        simp [delete_note, he]
      · rw [specDeleteHist, if_neg (by simp [he])]
        simp only [specLive, List.filter_cons] at *
        simp [delete_note, he, ih]

theorem specLive_applyOp (render : List Char → List Char)
    (hist : List (Bool × Note)) (op : Op) :
    specLive (specApplyOp render hist op) =
      applyOp render (specLive hist) op := by
  cases op with
  | create ts c =>
    simp only [specApplyOp, applyOp, append_note, specLive,
      List.filter_append]
    simp
  | update id c => exact specLive_update render hist id c
  | delete id => exact specLive_delete hist id

theorem specLive_applyOps (render : List Char → List Char) (ops : List Op) :
    ∀ hist : List (Bool × Note),
      specLive (specApplyOps render hist ops) =
        applyOps render (specLive hist) ops := by
  induction ops with
  | nil => intro hist; rfl
  | cons op ops ih =>
    intro hist
    have h1 : specApplyOps render hist (op :: ops) =
        specApplyOps render (specApplyOp render hist op) ops := rfl
    have h2 : applyOps render (specLive hist) (op :: ops) =
        applyOps render (applyOp render (specLive hist) op) ops := rfl
    rw [h1, h2, ih (specApplyOp render hist op), specLive_applyOp]

/-! The claims. -/

/-- Claim C3 (counterexample): `update` and `delete` on an id that is not in
the store are claimed to never return an error, but the code rewrites the
whole file unconditionally, so a failing rewrite surfaces an I/O error even
though id 0 is absent from the empty store. -/
theorem missing_id_error_cex :
    (backend_update_note (fun s => s) [] 0 [] false).2 = some NotesError.io ∧
    (backend_delete_note [] 0 false).2 = some NotesError.io :=
  ⟨rfl, rfl⟩

/-- Claim C3 (amended): `update`/`delete` on an absent id leave the note
sequence unchanged, and the lookup miss itself is never reported as an
error — when the unconditional file rewrite succeeds the call returns no
error; only an I/O failure of that rewrite surfaces. -/
theorem missing_id_noop (render : List Char → List Char) (notes : List Note)
    (id : Nat) (content : List Char) (ioOk : Bool)
    (h : id ∉ notes.map Note.id) :
    (backend_update_note render notes id content ioOk).1 = notes ∧
    (backend_delete_note notes id ioOk).1 = notes ∧
    (ioOk = true →
      (backend_update_note render notes id content ioOk).2 = none ∧
      (backend_delete_note notes id ioOk).2 = none) := by
  refine ⟨?_, ?_, ?_⟩
  · exact update_note_of_not_mem render notes id content h
  · exact delete_note_of_not_mem notes id h
  · intro hio
    subst hio
    exact ⟨rfl, rfl⟩

/-- Witness for `missing_id_noop` at a concrete store. -/
theorem missing_id_noop_witness :
    (backend_update_note (fun s => s) [Note.mk 1 [] [] []] 0 [] true).1 =
      [Note.mk 1 [] [] []] ∧
    (backend_delete_note [Note.mk 1 [] [] []] 0 true).1 =
      [Note.mk 1 [] [] []] ∧
    (true = true →
      (backend_update_note (fun s => s) [Note.mk 1 [] [] []] 0 [] true).2 =
        none ∧
      (backend_delete_note [Note.mk 1 [] [] []] 0 true).2 = none) :=
  missing_id_noop (fun s => s) [Note.mk 1 [] [] []] 0 [] true (by decide)

/-- Claim C4: when the durable append of `create` fails with an I/O error,
the freshly created note has nevertheless already been pushed to the
in-memory sequence: the error is reported, the sequence is the old one with
the note appended, and `get_all` still contains the note (the in-memory
insertion is not rolled back on file-write failure). -/
theorem create_io_failure_note_kept (render : List Char → List Char)
    (notes : List Note) (ts content : List Char) :
    (backend_create_note render notes ts content false).2.2 =
      some NotesError.io ∧
    (backend_create_note render notes ts content false).1 =
      notes ++ [(backend_create_note render notes ts content false).2.1] ∧
    (backend_create_note render notes ts content false).2.1 ∈
      get_all_notes (backend_create_note render notes ts content false).1 := by
  refine ⟨rfl, rfl, ?_⟩
  simp [backend_create_note, append_note, get_all_notes]

/-- Claim C5: `create` assigns `max(existing ids) + 1`, defaulting to `0`
when the store is empty; consequently a create performed while some note
with id strictly greater than `d` still exists never assigns `d` again. -/
theorem next_id_max_plus_one (render : List Char → List Char)
    (notes : List Note) (ts content : List Char) (d : Nat) :
    (notes = [] → next_note_id notes = 0) ∧
    (notes ≠ [] →
      next_note_id notes = (notes.map Note.id).foldr max 0 + 1) ∧
    ((∃ n ∈ notes, d < n.id) →
      d < (append_note render notes ts content).2.id ∧
      (append_note render notes ts content).2.id ≠ d) := by
  refine ⟨?_, ?_, ?_⟩
  · intro h
    subst h
    rfl
  · intro h
    have h2 : notes.map Note.id ≠ [] := by
      intro hme
      exact h (by simpa using hme)
    have hmm : notes.map (fun n => n.id + 1) =
        (notes.map Note.id).map (fun a => a + 1) := by
      rw [List.map_map]
      rfl
    rw [next_note_id, hmm]
    exact foldr_max_map_succ _ h2
  · rintro ⟨n, hn, hd⟩
    have h1 : n.id < next_note_id notes := id_lt_next_note_id notes n hn
    have h2 : (append_note render notes ts content).2.id =
        next_note_id notes := rfl
    rw [h2]
    omega

/-- Witness for `next_id_max_plus_one` at a concrete store. -/
theorem next_id_max_plus_one_witness :
    (next_note_id [Note.mk 5 [] [] []] =
      (([Note.mk 5 [] [] []] : List Note).map Note.id).foldr max 0 + 1) ∧
    (3 < (append_note (fun s => s) [Note.mk 5 [] [] []] [] []).2.id ∧
      (append_note (fun s => s) [Note.mk 5 [] [] []] [] []).2.id ≠ 3) :=
  ⟨(next_id_max_plus_one (fun s => s) [Note.mk 5 [] [] []] [] [] 3).2.1
      (by decide),
   (next_id_max_plus_one (fun s => s) [Note.mk 5 [] [] []] [] [] 3).2.2
      ⟨Note.mk 5 [] [] [], by decide, by decide⟩⟩

/-- Claim C7 (code evaluated at the failing input): the spec's `https`
example sanitizes exactly as claimed, but the claim that the `http://`
scheme is stripped fails: the chained `unwrap_or(url)` falls back to the
original url whenever the following `strip_prefix("https://")` misses, so
`url_to_safe_filename "http://example.com"` is `"http___example.com"`
(scheme kept and mangled) instead of `"example.com"`. -/
theorem url_sanitize_http_scheme_kept :
    url_to_safe_filename "http://example.com".toList =
      "http___example.com".toList ∧
    url_to_safe_filename "https://a.b/c?d=e".toList = "a.b_c_d_e".toList :=
  ⟨by decide, by decide⟩

/-- Claim C9: `update` on a present id (the decomposition
`pre ++ note :: post` with no earlier note carrying the id states
presence) replaces exactly that note's content and html — the note's id
and timestamp, every other note, and the order of the sequence are
unchanged. -/
theorem update_note_frame (render : List Char → List Char) (pre : List Note)
    (note : Note) (post : List Note) (c : List Char)
    (hpre : ∀ m ∈ pre, m.id ≠ note.id) :
    update_note render (pre ++ note :: post) note.id c =
      pre ++ { note with content := c, html := render c } :: post ∧
    (update_note render (pre ++ note :: post) note.id c).map Note.id =
      (pre ++ note :: post).map Note.id ∧
    (update_note render (pre ++ note :: post) note.id c).map Note.timestamp =
      (pre ++ note :: post).map Note.timestamp :=
  ⟨update_note_split render pre note post c hpre,
   update_note_map_id render _ _ _,
   update_note_map_timestamp render _ _ _⟩

/-- Witness for `update_note_frame` on a two-note store. -/
theorem update_note_frame_witness :
    update_note (fun s => s)
        ([Note.mk 0 ['s'] [] []] ++ Note.mk 1 ['t'] ['a'] ['a'] :: []) 1
        ['b'] =
      [Note.mk 0 ['s'] [] []] ++
        { Note.mk 1 ['t'] ['a'] ['a'] with
          content := ['b'], html := ['b'] } :: [] :=
  (update_note_frame (fun s => s) [Note.mk 0 ['s'] [] []]
    (Note.mk 1 ['t'] ['a'] ['a']) [] ['b'] (by decide)).1

/-- Claim C10: in every state reachable by a load followed by any operation
sequence the note ids are strictly increasing in insertion order (hence
unique, with the last note carrying the maximum), and every single
operation preserves strict increase. -/
theorem ids_strictly_increasing (render : List Char → List Char)
    (fresh file : List Char) (ops : List Op) :
    List.Pairwise (fun a b => a.id < b.id)
      (applyOps render (loadNotes render fresh file) ops) ∧
    (∀ (notes : List Note) (op : Op),
      List.Pairwise (fun a b => a.id < b.id) notes →
      List.Pairwise (fun a b => a.id < b.id) (applyOp render notes op)) :=
  ⟨pairwise_applyOps render ops _ (loadNotes_pairwise render fresh file),
   fun notes op h => pairwise_applyOp render notes op h⟩

/-- Witness for `ids_strictly_increasing`: preservation applied to a
concrete strictly-increasing store. -/
theorem ids_strictly_increasing_witness :
    List.Pairwise (fun a b => a.id < b.id)
      (applyOp (fun s => s) [Note.mk 0 [] [] [], Note.mk 1 [] [] []]
        (Op.delete 0)) :=
  (ids_strictly_increasing (fun s => s) [] [] []).2
    [Note.mk 0 [] [] [], Note.mk 1 [] [] []] (Op.delete 0) (by decide)

/-- Claim C1: after any sequence of create/update/delete operations on a
loaded store, `get_all` returns exactly the spec-level view of the run's
insertion history — every note ever inserted, in original insertion order,
minus the deleted ones (no tombstones): notes never deleted are all
retained, with their current content.  In addition every returned note's
html equals the render of its current content, the id sequence is an
order-preserving sublist of the loaded ids followed by the created ids,
and deleting an id from the reachable state leaves no note carrying it. -/
theorem get_all_order_and_html (render : List Char → List Char)
    (fresh file : List Char) (ops : List Op) :
    get_all_notes (applyOps render (loadNotes render fresh file) ops) =
      specLive (specApplyOps render (initHist (loadNotes render fresh file))
        ops) ∧
    (∀ n ∈ get_all_notes (applyOps render (loadNotes render fresh file) ops),
      n.html = render n.content) ∧
    List.Sublist
      ((applyOps render (loadNotes render fresh file) ops).map Note.id)
      ((loadNotes render fresh file).map Note.id ++
        createdIds render (loadNotes render fresh file) ops) ∧
    (∀ id, id ∉
      (delete_note (applyOps render (loadNotes render fresh file) ops)
        id).map Note.id) :=
  ⟨by
    rw [specLive_applyOps, specLive_initHist]
    rfl,
   htmlInv_applyOps render ops _ (loadNotes_htmlInv render fresh file),
   applyOps_map_id_sublist render ops _,
   fun id => delete_note_id_not_mem _ id
     (pairwise_applyOps render ops _ (loadNotes_pairwise render fresh file))⟩

/-- Witness for `get_all_order_and_html` on a concrete run. -/
theorem get_all_order_and_html_witness :
    get_all_notes (applyOps (fun s => s)
        (loadNotes (fun s => s) [] []) [Op.create [] ['a']]) =
      specLive (specApplyOps (fun s => s)
        (initHist (loadNotes (fun s => s) [] [])) [Op.create [] ['a']]) ∧
    (Note.mk 0 [] ['a'] ['a']).html =
      (fun s => s) (Note.mk 0 [] ['a'] ['a']).content ∧
    0 ∉ (delete_note (applyOps (fun s => s)
      (loadNotes (fun s => s) [] []) [Op.create [] ['a']]) 0).map Note.id :=
  ⟨(get_all_order_and_html (fun s => s) [] [] [Op.create [] ['a']]).1,
   (get_all_order_and_html (fun s => s) [] [] [Op.create [] ['a']]).2.1
      (Note.mk 0 [] ['a'] ['a']) (by decide),
   (get_all_order_and_html (fun s => s) [] [] [Op.create [] ['a']]).2.2.2 0⟩

/-- Claim C6 (code evaluated at the failing input): a completed archiver
process with non-zero exit status (`success := false`) still triggers the
callback — the note is rewritten and the `+url` marker is gone — because
`download_webpage` only checks for a spawn error, never the exit status.
This contradicts the claim that a failed fetch writes nothing back and
leaves the marker unchanged. -/
theorem webpage_nonzero_exit_still_updates :
    download_webpage (fun s => s) "https://e.com".toList
        [Note.mk 0 [] ('+' :: "https://e.com".toList)
          ('+' :: "https://e.com".toList)]
        0 "att".toList (Except.ok (ProcOutput.mk false [])) =
      [Note.mk 0 []
        "https://e.com ([local copy](/attachments/webpages/e.com.html))".toList
        "https://e.com ([local copy](/attachments/webpages/e.com.html))".toList] ∧
    occursIn ('+' :: "https://e.com".toList)
      "https://e.com ([local copy](/attachments/webpages/e.com.html))".toList =
      false :=
  ⟨by decide, by decide⟩

/-- Claim C8: the resolution callback stores the current content with the
exact substring `+<url>` replaced by
`<url> ([local copy](/attachments/<relative-path>))`; when the note was
deleted it changes nothing, and when the marker no longer occurs verbatim
in the current content it leaves the sequence unchanged (string-replace
semantics) — no error in either case. -/
theorem update_local_link_spec (render : List Char → List Char)
    (notes : List Note) (note_id : Nat)
    (attachments_dir external_link local_path : List Char) :
    (get_note_by_id notes note_id = none →
      delegate_update_local_link render notes note_id attachments_dir
        external_link local_path = notes) ∧
    (∀ note, get_note_by_id notes note_id = some note →
      occursIn ('+' :: external_link) note.content = false →
      note.html = render note.content →
      delegate_update_local_link render notes note_id attachments_dir
        external_link local_path = notes) ∧
    (∀ note rel, get_note_by_id notes note_id = some note →
      relativeTo attachments_dir local_path = some rel →
      delegate_update_local_link render notes note_id attachments_dir
        external_link local_path =
        update_note render notes note.id
          (replaceSub '+' external_link
            (external_link ++ " ([local copy](".toList ++
              ("/attachments/".toList ++ rel) ++ "))".toList)
            note.content)) := by
  refine ⟨?_, ?_, ?_⟩
  · intro h
    simp [delegate_update_local_link, h]
  · intro note hfind hocc hinv
    cases hrel : relativeTo attachments_dir local_path with
    | none => simp [delegate_update_local_link, hfind, hrel]
    | some rel =>
      simp only [delegate_update_local_link, hfind, hrel]
      rw [replaceSub_of_not_occurs _ _ _ _ hocc]
      have hid : note.id = note_id := by
        have := List.find?_some hfind
        simpa using this
      rw [hid]
      exact update_note_first_self render notes note_id note hfind hinv
  · intro note rel hfind hrel
    simp only [delegate_update_local_link, hfind, hrel]

/-- Witness for `update_local_link_spec` on a concrete note and path. -/
theorem update_local_link_spec_witness :
    delegate_update_local_link (fun s => s)
        [Note.mk 0 [] ['+', 'u'] ['+', 'u']] 0 ['a'] ['u'] "a/w".toList =
      update_note (fun s => s) [Note.mk 0 [] ['+', 'u'] ['+', 'u']]
        (Note.mk 0 [] ['+', 'u'] ['+', 'u']).id
        (replaceSub '+' ['u']
          (['u'] ++ " ([local copy](".toList ++
            ("/attachments/".toList ++ ['w']) ++ "))".toList)
          (Note.mk 0 [] ['+', 'u'] ['+', 'u']).content) :=
  (update_local_link_spec (fun s => s) [Note.mk 0 [] ['+', 'u'] ['+', 'u']]
      0 ['a'] ['u'] "a/w".toList).2.2
    (Note.mk 0 [] ['+', 'u'] ['+', 'u']) ['w'] (by decide) (by decide)

/-- Claim C2 (counterexample): the round-trip fails as stated: a note whose
content carries leading whitespace does not survive write-then-load,
because load trims the parsed content — content `" x"` comes back as
`"x"`. -/
theorem roundtrip_cex :
    ((loadNotes (fun s => s) []
        (serializeNotes [Note.mk 0 ['t'] [' ', 'x'] [' ', 'x']])).map
      (fun n => (n.timestamp, n.content))) ≠
      [((['t'] : List Char), ([' ', 'x'] : List Char))] := by
  decide

/-- Claim C2 (amended): the round-trip holds for every sequence of notes
whose timestamps are trim-invariant, nonempty and newline-free, whose
contents are trim-invariant, and whose record bodies contain no (possibly
boundary-overlapping) occurrence of the record delimiter: loading the
serialized file reproduces each note's timestamp and content, with ids
reassigned by 0-indexed file position and html re-rendered from the
content. -/
theorem roundtrip_clean (render : List Char → List Char)
    (fresh : List Char) (notes : List Note)
    (hts : ∀ n ∈ notes, trim n.timestamp = n.timestamp ∧
      n.timestamp ≠ [] ∧ ('\n' : Char) ∉ n.timestamp)
    (hc : ∀ n ∈ notes, trim n.content = n.content)
    (hclean : ∀ n ∈ notes, cleanChunk (chunkOf n)) :
    loadNotes render fresh (serializeNotes notes) =
      (enumFromNat 0 notes).map
        (fun p => { id := p.1, timestamp := p.2.timestamp,
                    content := p.2.content, html := render p.2.content }) := by
  unfold loadNotes
  rw [splitOnSub_serialize notes hclean, List.filter_append]
  have h1 : (notes.map chunkOf).filter (fun b => !(trim b).isEmpty) =
      notes.map chunkOf := by
    rw [List.filter_eq_self]
    intro b hb
    obtain ⟨n, hn, rfl⟩ := List.mem_map.mp hb
    have hne := trim_append_ne_nil n.timestamp ('\n' :: n.content)
      (hts n hn).1 (hts n hn).2.1
    rw [Bool.not_eq_true', List.isEmpty_eq_false]
    exact hne
  have h2 : ([[]] : List (List Char)).filter (fun b => !(trim b).isEmpty) =
      [] := rfl
  rw [h1, h2, List.append_nil]
  show (enumFromNat 0 ((notes.map chunkOf).map (parseBlock fresh))).map
      (fun p => ({ id := p.1, timestamp := p.2.1, content := p.2.2,
                   html := render p.2.2 } : Note)) = _
  rw [List.map_map]
  have h3 : notes.map ((parseBlock fresh) ∘ chunkOf) =
      notes.map (fun n => (n.timestamp, n.content)) := by
    apply List.map_congr_left
    intro n hn
    exact parseBlock_chunk fresh n.timestamp n.content (hts n hn).2.2
      (hts n hn).1 (hc n hn)
  rw [h3, enumFromNat_map, List.map_map]
  rfl

/-- Witness for `roundtrip_clean` on two concrete clean notes. -/
theorem roundtrip_clean_witness :
    loadNotes (fun s => s) []
        (serializeNotes [Note.mk 7 "t1".toList "hello".toList [],
          Note.mk 9 "t2".toList "world".toList []]) =
      (enumFromNat 0 [Note.mk 7 "t1".toList "hello".toList [],
          Note.mk 9 "t2".toList "world".toList []]).map
        (fun p => { id := p.1, timestamp := p.2.timestamp,
                    content := p.2.content,
                    html := (fun s : List Char => s) p.2.content }) :=
  roundtrip_clean (fun s => s) []
    [Note.mk 7 "t1".toList "hello".toList [],
      Note.mk 9 "t2".toList "world".toList []]
    (by decide) (by decide) (by decide)

end Textpod
